import Mathlib

/-!
Verification of the SISL VFD stock-report generator (`build_vfd_report.py`).

This file gives a shallow embedding, in Lean 4, of the reconciliation and
derivation core of the script: identifier normalization, the inventory
eligibility filter, the master list-price parser, the two price-fallback
chains, the derived financial metrics, and the final capacity/series sort.
Numeric cell values are modelled as rationals; the pandas/IEEE float columns
that can hold NaN or infinities are modelled by the `PFloat` type below.
Python exceptions (for example `float("")` raising `ValueError`) are modelled
by `Option`-valued functions returning `none`.

All definitions are transcribed from the Python source; definitions whose
names end in `_claim` instead follow the wording of the natural-language
specification and exist only to be compared against the transcriptions.
-/

set_option allowUnsafeReducibility true

attribute [semireducible] Rat.mul Rat.add Rat.inv Rat.sub Rat.ofScientific

namespace VFD

/-! ## Basic character/list utilities (Python string primitives) -/

/-- Whitespace test used by Python `str.strip` (ASCII cases suffice here). -/
def isWS (c : Char) : Bool := c.isWhitespace

/-- Drop leading whitespace, as Python `lstrip`. -/
def dw : List Char → List Char
  | [] => []
  | c :: r => if isWS c then dw r else c :: r

/-- Drop trailing whitespace, implemented by reversal. -/
def rdw (l : List Char) : List Char := (dw l.reverse).reverse

/-- Python `str.strip` on character lists: remove whitespace at both ends. -/
def stripL (l : List Char) : List Char := rdw (dw l)

/-- Python `str.strip` on strings. -/
def pyStrip (s : String) : String := String.mk (stripL s.data)

/-- Scan for the first occurrence of the separator `"||"`, returning the
suffix after it, exactly as Python `str.split("||")` locates its first cut
(left to right, non-overlapping). -/
def afterSep : List Char → Option (List Char)
  | [] => none
  | [_] => none
  | a :: b :: r => if a = '|' ∧ b = '|' then some r else afterSep (b :: r)

theorem afterSep_some_length : ∀ {l r : List Char}, afterSep l = some r →
    r.length + 2 ≤ l.length
  | [], _, h => by simp [afterSep] at h
  | [_], _, h => by simp [afterSep] at h
  | a :: b :: t, r, h => by
    by_cases hab : a = '|' ∧ b = '|'
    · rw [afterSep, if_pos hab] at h
      cases h; simp
    · rw [afterSep, if_neg hab] at h
      have := afterSep_some_length h
      simp at this ⊢
      omega

/-- The segment of `l` after the last `"||"` separator, i.e. Python
`l.split("||")[-1]` with Python's left-to-right non-overlapping scan. -/
def lastSeg : List Char → List Char
  | [] => []
  | [a] => [a]
  | a :: b :: r =>
    if a = '|' ∧ b = '|' then lastSeg r
    else if (afterSep (b :: r)).isSome then lastSeg (b :: r) else a :: b :: r

theorem lastSeg_of_none : ∀ {l : List Char}, afterSep l = none → lastSeg l = l
  | [], _ => rfl
  | [_], _ => rfl
  | a :: b :: r, h => by
    by_cases hab : a = '|' ∧ b = '|'
    · rw [afterSep, if_pos hab] at h
      cases h
    · rw [afterSep, if_neg hab] at h
      simp only [lastSeg, if_neg hab, h, Option.isSome_none, Bool.false_eq_true,
        if_false]

theorem lastSeg_of_some : ∀ {l r : List Char}, afterSep l = some r →
    lastSeg l = lastSeg r
  | [], _, h => by simp [afterSep] at h
  | [_], _, h => by simp [afterSep] at h
  | a :: b :: t, r, h => by
    by_cases hab : a = '|' ∧ b = '|'
    · rw [afterSep, if_pos hab] at h
      cases h
      simp only [lastSeg, if_pos hab]
    · rw [afterSep, if_neg hab] at h
      have hs : (afterSep (b :: t)).isSome := by rw [h]; rfl
      simp only [lastSeg, if_neg hab, hs, if_true]
      exact lastSeg_of_some h

/-- After taking the last segment, no separator remains. -/
theorem afterSep_lastSeg (l : List Char) : afterSep (lastSeg l) = none :=
  match h : afterSep l with
  | none => by rw [lastSeg_of_none h]; exact h
  | some r => by
    rw [lastSeg_of_some h]
    exact afterSep_lastSeg r
termination_by l.length
decreasing_by
  have := afterSep_some_length h
  omega

/-- Adjacent-characters relation: not both pipes. -/
def notPP (a b : Char) : Prop := ¬(a = '|' ∧ b = '|')

/-- Separator-freeness is the same as the chain condition `notPP` on
adjacent characters. -/
theorem afterSep_none_iff_chain : ∀ {l : List Char},
    afterSep l = none ↔ l.Chain' notPP
  | [] => by simp [afterSep]
  | [c] => by simp [afterSep]
  | a :: b :: t => by
    by_cases hab : a = '|' ∧ b = '|'
    · rw [afterSep, if_pos hab]
      simp [List.chain'_cons, notPP, hab.1, hab.2]
    · rw [afterSep, if_neg hab, List.chain'_cons]
      rw [afterSep_none_iff_chain]
      exact ⟨fun h => ⟨hab, h⟩, fun h => h.2⟩

theorem notPP_symm {a b : Char} (h : notPP a b) : notPP b a := by
  intro ⟨h1, h2⟩; exact h ⟨h2, h1⟩

theorem chain_notPP_reverse {l : List Char} (h : l.Chain' notPP) :
    l.reverse.Chain' notPP := by
  rw [List.chain'_reverse]
  exact h.imp fun a b hab => notPP_symm hab

/-- A list of non-pipe characters is separator-free. -/
theorem chain_notPP_of_no_pipe {l : List Char} (h : ∀ c ∈ l, c ≠ '|') :
    l.Chain' notPP := by
  induction l with
  | nil => simp
  | cons a t ih =>
    cases t with
    | nil => simp
    | cons b r =>
      rw [List.chain'_cons]
      refine ⟨fun hab => h a (by simp) hab.1, ih fun c hc => h c (by simp [hc])⟩

/-! ### Interaction of stripping with separator-freeness -/

theorem dw_decomp : ∀ l : List Char, ∃ w, l = w ++ dw l ∧ (∀ c ∈ w, isWS c) ∧
    (dw l = [] ∨ ∃ c t, dw l = c :: t ∧ ¬ isWS c)
  | [] => ⟨[], rfl, by simp, Or.inl rfl⟩
  | c :: r => by
    by_cases h : isWS c
    · obtain ⟨w, hw, hws, hh⟩ := dw_decomp r
      have hdw : dw (c :: r) = dw r := by simp [dw, h]
      refine ⟨c :: w, ?_, ?_, ?_⟩
      · rw [hdw, List.cons_append, ← hw]
      · intro d hd
        rcases List.mem_cons.mp hd with rfl | h1
        · exact h
        · exact hws d h1
      · rw [hdw]; exact hh
    · have hdw : dw (c :: r) = c :: r := by simp [dw, h]
      exact ⟨[], by rw [hdw]; rfl, by simp, Or.inr ⟨c, r, hdw, h⟩⟩

theorem dw_sublist (l : List Char) : ∃ w, l = w ++ dw l :=
  (dw_decomp l).elim fun w hw => ⟨w, hw.1⟩

theorem chain_notPP_append_right {a b : List Char} (h : (a ++ b).Chain' notPP) :
    b.Chain' notPP :=
  ((List.chain'_append.mp h).2).1

theorem chain_notPP_dw {l : List Char} (h : l.Chain' notPP) :
    (dw l).Chain' notPP := by
  obtain ⟨w, hw⟩ := dw_sublist l
  exact chain_notPP_append_right (hw ▸ h)

theorem chain_notPP_rdw {l : List Char} (h : l.Chain' notPP) :
    (rdw l).Chain' notPP :=
  chain_notPP_reverse (chain_notPP_dw (chain_notPP_reverse h))

theorem chain_notPP_stripL {l : List Char} (h : l.Chain' notPP) :
    (stripL l).Chain' notPP :=
  chain_notPP_rdw (chain_notPP_dw h)

/-! ### Strip is idempotent and absorbs outer whitespace -/

theorem dw_of_head_not_ws : ∀ {l : List Char}, (l = [] ∨ ∃ c t, l = c :: t ∧ ¬ isWS c) →
    dw l = l := by
  intro l h
  rcases h with h | ⟨c, t, rfl, hc⟩
  · simp [h, dw]
  · simp [dw, hc]

theorem dw_dw (l : List Char) : dw (dw l) = dw l := by
  obtain ⟨w, _, _, hh⟩ := dw_decomp l
  exact dw_of_head_not_ws hh

theorem dw_append_ws {w : List Char} (hw : ∀ c ∈ w, isWS c) (l : List Char) :
    dw (w ++ l) = dw l := by
  induction w with
  | nil => simp
  | cons c t ih =>
    have hc : isWS c := hw c (by simp)
    simp only [List.cons_append, dw, hc, if_true]
    exact ih fun d hd => hw d (by simp [hd])

theorem dw_eq_nil_iff (l : List Char) : dw l = [] ↔ ∀ c ∈ l, isWS c := by
  induction l with
  | nil => exact ⟨fun _ => by simp, fun _ => rfl⟩
  | cons c t ih =>
    by_cases h : isWS c
    · simpa [dw, h] using ih
    · simp [dw, h]

theorem dw_append_of_ne_nil : ∀ {x : List Char}, dw x ≠ [] →
    ∀ y, dw (x ++ y) = dw x ++ y := by
  intro x
  induction x with
  | nil => intro h; simp [dw] at h
  | cons c t ih =>
    intro h y
    by_cases hc : isWS c
    · have h2 : dw t ≠ [] := by
        intro h0
        apply h
        simp [dw, hc, h0]
      have := ih h2 y
      simp only [List.cons_append]
      simp only [dw, hc, if_true]
      exact this
    · simp [dw, hc]

theorem rdw_rdw (l : List Char) : rdw (rdw l) = rdw l := by
  unfold rdw
  rw [List.reverse_reverse, dw_dw]

theorem rdw_append_ws {w : List Char} (hw : ∀ c ∈ w, isWS c) (l : List Char) :
    rdw (l ++ w) = rdw l := by
  unfold rdw
  rw [List.reverse_append, dw_append_ws (by simpa using hw)]

/-- Leading and trailing trimming commute. -/
theorem dw_rdw_comm (l : List Char) : dw (rdw l) = rdw (dw l) := by
  obtain ⟨w, hl, hws, hh⟩ := dw_decomp l
  rcases hh with h0 | ⟨c, t, hct, hc⟩
  · rw [h0]
    have hwl : ∀ d ∈ l, isWS d := by
      intro d hd
      rw [hl, h0, List.append_nil] at hd
      exact hws d hd
    have : dw l.reverse = [] := by
      rw [dw_eq_nil_iff]; intro d hd; exact hwl d (List.mem_reverse.mp hd)
    simp [rdw, this, dw]
  · -- l = w ++ dw l with dw l = c :: t, head not whitespace
    have hrev : dw ((dw l).reverse ++ w.reverse) = dw (dw l).reverse ++ w.reverse := by
      apply dw_append_of_ne_nil
      intro hnil
      rw [dw_eq_nil_iff] at hnil
      have : isWS c := by
        apply hnil
        rw [List.mem_reverse, hct]; simp
      exact hc this
    have hstep : rdw l = w ++ rdw (dw l) := by
      conv_lhs => rw [hl]
      unfold rdw
      rw [List.reverse_append, hrev, List.reverse_append, List.reverse_reverse]
    rw [hstep, dw_append_ws hws]
    -- remains: dw (rdw (dw l)) = rdw (dw l)
    apply dw_of_head_not_ws
    -- rdw (dw l) is a prefix of dw l = c :: t, so it is [] or starts with c
    obtain ⟨v, hv⟩ := dw_sublist (dw l).reverse
    have hpref : dw l = rdw (dw l) ++ v.reverse := by
      unfold rdw
      conv_lhs => rw [← List.reverse_reverse (dw l), hv]
      rw [List.reverse_append]
    rcases heq : rdw (dw l) with _ | ⟨d, u⟩
    · exact Or.inl rfl
    · refine Or.inr ⟨d, u, rfl, ?_⟩
      rw [heq] at hpref
      rw [hct] at hpref
      have : c = d := by
        have := congrArg List.head? hpref
        simpa using this
      exact this ▸ hc

theorem stripL_stripL (l : List Char) : stripL (stripL l) = stripL l := by
  unfold stripL
  rw [dw_rdw_comm, rdw_rdw, dw_dw]

theorem stripL_ws_pad {w1 w2 l : List Char} (h1 : ∀ c ∈ w1, isWS c)
    (h2 : ∀ c ∈ w2, isWS c) : stripL (w1 ++ l ++ w2) = stripL l := by
  unfold stripL
  rw [List.append_assoc, dw_append_ws h1, ← dw_rdw_comm, rdw_append_ws h2,
    dw_rdw_comm]

/-! ## Key normalization (the inventory `Model` column) -/

/-- The literal remap source recorded in the script. -/
def remapSrc : String := "FR-D720S-025-NA"

/-- The literal remap target recorded in the script. -/
def remapTgt : String := "FR-D720S-0.4K"

/-- The split/strip step: `s.split("||")[-1].strip()`. -/
def preKey (s : String) : String := String.mk (stripL (lastSeg s.data))

/-- Full normalization of a raw identifier into the `Model` key:
`s.split("||")[-1].strip()` followed by the single-value
`replace({"FR-D720S-025-NA": "FR-D720S-0.4K"})`. -/
def normalizeKey (s : String) : String :=
  if preKey s = remapSrc then remapTgt else preKey s

theorem preKey_preKey (s : String) : preKey (preKey s) = preKey s := by
  have hchain : (stripL (lastSeg s.data)).Chain' notPP :=
    chain_notPP_stripL (afterSep_none_iff_chain.mp (afterSep_lastSeg s.data))
  show String.mk (stripL (lastSeg (stripL (lastSeg s.data)))) = _
  rw [lastSeg_of_none (afterSep_none_iff_chain.mpr hchain), stripL_stripL]
  rfl

theorem normalizeKey_congr {a b : String} (h : preKey a = preKey b) :
    normalizeKey a = normalizeKey b := by
  rw [normalizeKey, normalizeKey, h]

/-- C5: normalization of a raw identifier is total (it is a function on
strings; non-string cells are stringified upstream by `astype(str)`, so every
input yields a deterministic, possibly empty, key) and idempotent:
normalizing an already-normalized key changes nothing. -/
theorem c5_normalize_total_idempotent (s : String) :
    normalizeKey (normalizeKey s) = normalizeKey s := by
  by_cases h : preKey s = remapSrc
  · have h1 : normalizeKey s = remapTgt := by rw [normalizeKey, if_pos h]
    rw [h1, normalizeKey,
      show preKey remapTgt = remapTgt from by decide,
      if_neg (show remapTgt ≠ remapSrc from by decide)]
  · have h1 : normalizeKey s = preKey s := by rw [normalizeKey, if_neg h]
    rw [h1, normalizeKey, preKey_preKey, if_neg h]

/-- C4 counterexample: the two raw identifiers differ only by letter case,
yet they normalize to different keys — the script never uppercases (nor does
it remove internal whitespace or strip a trailing "-1"). -/
theorem c4_counterexample : normalizeKey "fr-a" ≠ normalizeKey "FR-A" := by
  decide

theorem whitespace_ne_pipe {c : Char} (h : isWS c) : c ≠ '|' := by
  intro hc
  subst hc
  exact absurd h (by decide)

theorem afterSep_append_sep : ∀ {p : List Char}, '|' ∉ p →
    ∀ s, afterSep (p ++ '|' :: '|' :: s) = some s
  | [], _, s => by
    rw [List.nil_append, afterSep, if_pos ⟨rfl, rfl⟩]
  | c :: t, h, s => by
    have hc : c ≠ '|' := fun e => h (by simp [e])
    cases t with
    | nil =>
      simp only [List.cons_append, List.nil_append]
      rw [afterSep, if_neg (by tauto), afterSep, if_pos ⟨rfl, rfl⟩]
    | cons d t' =>
      simp only [List.cons_append]
      rw [afterSep, if_neg (by tauto)]
      exact afterSep_append_sep (fun hm => h (List.mem_cons_of_mem c hm)) s

/-- C4 (amended): normalization does not identify case, internal-whitespace,
or trailing "-1" variants. What it does identify: identifiers that differ
only by surrounding whitespace, and identifiers that differ only by extra
content (itself separator-free) before a `"||"` separator, normalize to the
same key. -/
theorem c4_amended :
    (∀ w1 w2 s : List Char, (∀ c ∈ w1, isWS c) → (∀ c ∈ w2, isWS c) →
      afterSep s = none →
      normalizeKey (String.mk (w1 ++ s ++ w2)) = normalizeKey (String.mk s)) ∧
    (∀ p s : List Char, '|' ∉ p →
      normalizeKey (String.mk (p ++ '|' :: '|' :: s)) =
        normalizeKey (String.mk s)) := by
  constructor
  · intro w1 w2 s hw1 hw2 hs
    apply normalizeKey_congr
    show String.mk (stripL (lastSeg (w1 ++ s ++ w2))) =
      String.mk (stripL (lastSeg s))
    have hchain : (w1 ++ s ++ w2).Chain' notPP := by
      rw [List.append_assoc, List.chain'_append]
      refine ⟨chain_notPP_of_no_pipe fun c hc => whitespace_ne_pipe (hw1 c hc),
        ?_, ?_⟩
      · rw [List.chain'_append]
        refine ⟨afterSep_none_iff_chain.mp hs,
          chain_notPP_of_no_pipe fun c hc => whitespace_ne_pipe (hw2 c hc),
          ?_⟩
        intro x _ y hy
        exact fun hp =>
          whitespace_ne_pipe (hw2 y (List.mem_of_mem_head? hy)) hp.2
      · intro x hx y _
        exact fun hp =>
          whitespace_ne_pipe (hw1 x (List.mem_of_mem_getLast? hx)) hp.1
    rw [lastSeg_of_none (afterSep_none_iff_chain.mpr hchain),
      lastSeg_of_none hs, stripL_ws_pad hw1 hw2]
  · intro p s hp
    apply normalizeKey_congr
    show String.mk (stripL (lastSeg (p ++ '|' :: '|' :: s))) =
      String.mk (stripL (lastSeg s))
    rw [lastSeg_of_some (afterSep_append_sep hp s)]

/-- C4 witness: concrete uses of the amended equivalences. -/
theorem c4_witness :
    normalizeKey (String.mk ([' '] ++ "FR-A".data ++ [' ', ' '])) =
      normalizeKey (String.mk "FR-A".data) ∧
    normalizeKey (String.mk ("abc".data ++ '|' :: '|' :: "FR-A".data)) =
      normalizeKey (String.mk "FR-A".data) :=
  ⟨c4_amended.1 [' '] [' ', ' '] "FR-A".data (by decide) (by decide)
      (by decide),
    c4_amended.2 "abc".data "FR-A".data (by decide)⟩

/-! ## Substring search (Python `t in s`) and related regex pieces -/

/-- Does `p` occur at the head of `l`? -/
def startsL : List Char → List Char → Bool
  | [], _ => true
  | _ :: _, [] => false
  | p :: ps, c :: cs => p = c && startsL ps cs

/-- Does `p` occur anywhere in `l`? (Python `p in l`.) -/
def containsL (p : List Char) : List Char → Bool
  | [] => p.isEmpty
  | c :: cs => startsL p (c :: cs) || containsL p cs

/-- Python substring test `t in s`. -/
def strHas (s t : String) : Bool := containsL t.data s.data

/-- ASCII lowercase map, for the case-insensitive `FR-HEL` search. -/
def lowerL (l : List Char) : List Char := l.map Char.toLower

/-- Case-insensitive substring test, modelling `re.search(t, s, re.I)` for a
literal pattern `t`. -/
def strHasCI (s t : String) : Bool := containsL (lowerL t.data) (lowerL s.data)

def isUpperAZ (c : Char) : Bool := 'A' ≤ c ∧ c ≤ 'Z'

/-- Model of `re.match(r"FR-([A-Z])", model)`: the captured letter, if the
string starts with `FR-` followed by an uppercase letter. -/
def frLetter (model : String) : Option Char :=
  match model.data with
  | 'F' :: 'R' :: '-' :: c :: _ => if isUpperAZ c then some c else none
  | _ => none

/-- Model of `re.sub(r"FR-[A-Z]", "FR-" + alt, l, 1)`: replace the first
occurrence of `FR-` + uppercase letter, scanning left to right. -/
def subFR (alt : Char) : List Char → List Char
  | [] => []
  | c :: rest =>
    if c = 'F' then
      match rest with
      | 'R' :: '-' :: d :: r2 =>
        if isUpperAZ d then 'F' :: 'R' :: '-' :: alt :: r2
        else c :: subFR alt rest
      | _ => c :: subFR alt rest
    else c :: subFR alt rest

/-- String version of `subFR`. -/
def strSubFR (alt : Char) (model : String) : String :=
  String.mk (subFR alt model.data)

/-! ## The capacity-token pattern `-(?:H)?([\d.]+)K`

`re.search` scans positions left to right; the pattern anchors at a `'-'`,
optionally consumes an `'H'`, then greedily takes at least one digit-or-dot
character, and requires a `'K'` immediately after. Because `'K'` is not a
digit-or-dot character, the greedy run needs no backtracking: the match
succeeds exactly when the maximal run is nonempty and followed by `'K'`. -/

def isDigitDot (c : Char) : Bool := c.isDigit || c = '.'

/-- Attempt the part of the pattern after the leading `'-'`; returns the
captured group (the digit/dot run). -/
def capAfterDash (l : List Char) : Option (List Char) :=
  let body := fun (m : List Char) =>
    let ds := m.takeWhile isDigitDot
    let r := m.dropWhile isDigitDot
    if ds ≠ [] ∧ r.head? = some 'K' then some ds else none
  match l with
  | 'H' :: t => (body t).orElse fun _ => body l
  | _ => body l

/-- Model of `re.search(r"-(?:H)?([\d.]+)K", model)`, returning capture
group 1. -/
def capSearch : List Char → Option (List Char)
  | [] => none
  | c :: rest =>
    if c = '-' then
      match capAfterDash rest with
      | some g => some g
      | none => capSearch rest
    else capSearch rest

/-! ## Python numeric conversion -/

def digitsToNat (l : List Char) : Nat :=
  l.foldl (fun n c => 10 * n + (c.toNat - 48)) 0

/-- Model of Python `float(s)` restricted to the digit/dot strings reachable
here: optional integer digits, optional `'.'` plus fractional digits, at
least one digit overall. Anything else (for example `""`, `"."`, `"1.2.3"`)
raises `ValueError` in Python, modelled as `none`. -/
def pyFloat (l : List Char) : Option ℚ :=
  let ip := l.takeWhile Char.isDigit
  let r := l.dropWhile Char.isDigit
  match r with
  | [] => if ip.isEmpty then none else some (digitsToNat ip)
  | '.' :: ds =>
    if ds.all Char.isDigit ∧ (¬ ip.isEmpty ∨ ¬ ds.isEmpty) then
      some ((digitsToNat ip : ℚ) + (digitsToNat ds : ℚ) / (10 ^ ds.length))
    else none
  | _ => none

/-- Model of `capacity_val`: `float(m.group(1)) if m else 0.0`. A `none`
result models the `ValueError` raised when the captured group is not a valid
float literal. -/
def capacity_val (model : String) : Option ℚ :=
  match capSearch model.data with
  | none => some 0
  | some g => pyFloat g

/-- Model of `series_tag`. -/
def series_tag (model : String) : String :=
  if strHasCI model "FR-HEL" then "H"
  else
    match frLetter model with
    | some c => String.mk [c]
    | none => ""

/-- The `order_map = {"D": 0, "E": 1, "F": 2, "A": 3, "H": 4}` lookup with
`fillna(99)`. -/
def orderOf (tag : String) : ℚ :=
  if tag = "D" then 0
  else if tag = "E" then 1
  else if tag = "F" then 2
  else if tag = "A" then 3
  else if tag = "H" then 4
  else 99

/-! ## Pandas float cells

A pandas float column cell is an IEEE double: a finite value, an infinity
(for example from division by zero), or NaN (pandas' representation of an
absent value). Finite values are modelled exactly as rationals. -/

inductive PFloat where
  | val : ℚ → PFloat
  | inf : Bool → PFloat
  | nan : PFloat
deriving DecidableEq

namespace PFloat

/-- IEEE subtraction on pandas cells. -/
def sub : PFloat → PFloat → PFloat
  | nan, _ => nan
  | _, nan => nan
  | val a, val b => val (a - b)
  | inf s, val _ => inf s
  | val _, inf s => inf (!s)
  | inf s, inf t => if s = t then nan else inf s

/-- IEEE multiplication on pandas cells. -/
def mul : PFloat → PFloat → PFloat
  | nan, _ => nan
  | _, nan => nan
  | val a, val b => val (a * b)
  | inf s, val b => if b = 0 then nan else inf (s = decide (0 < b))
  | val a, inf s => if a = 0 then nan else inf (s = decide (0 < a))
  | inf s, inf t => inf (s = t)

/-- IEEE division on pandas cells; numpy turns `x/0` into a signed infinity
(or NaN for `0/0`) rather than raising. -/
def div : PFloat → PFloat → PFloat
  | nan, _ => nan
  | _, nan => nan
  | val a, val b =>
    if b ≠ 0 then val (a / b)
    else if a = 0 then nan
    else inf (decide (0 < a))
  | inf s, val b => if b = 0 then inf s else inf (s = decide (0 < b))
  | val _, inf _ => val 0
  | inf _, inf _ => nan

/-- Pandas `isna`: true only for NaN (infinities are not NA). -/
def isna : PFloat → Bool
  | nan => true
  | _ => false

end PFloat

/-- Lift an optional rational (a lookup result) into a pandas cell: a missing
value becomes NaN. -/
def ofOpt : Option ℚ → PFloat
  | none => PFloat.nan
  | some q => PFloat.val q

/-! ## Price indexes -/

/-- A price index: a dictionary from model-key strings to prices. -/
def PMap : Type := String → Option ℚ

/-- The empty dictionary. -/
def emptyPM : PMap := fun _ => none

/-- Dictionary update, as Python `mp[k] = v` (later writes win). -/
def pupd (m : PMap) (k : String) (v : ℚ) : PMap :=
  fun x => if x = k then some v else m x

/-- Python truthiness-based `or` on optional prices: `a or b` keeps `a` only
when it is a present, nonzero value. -/
def pyOrQ (a b : Option ℚ) : Option ℚ :=
  match a with
  | some v => if v ≠ 0 then some v else b
  | none => b

/-- Model of `fallback127`: the `1.27` secondary-price fallback. -/
def fallback127 (model : String) (lookup : PMap) : Option ℚ :=
  match (capSearch model.data).map (fun g => String.mk g ++ "K") with
  | none => none
  | some cap =>
    if strHas model "720" then lookup ("FR-E820-" ++ cap ++ "-1")
    else if strHas model "740" then lookup ("FR-E840-" ++ cap ++ "-1")
    else none

/-- Model of the `inv["1.27"]` column: `p127_map.get(m, fallback127(m, ...))`. -/
def resolve127 (model : String) (pm : PMap) : Option ℚ :=
  match pm model with
  | some v => some v
  | none => fallback127 model pm

/-- The loop `for alt in "AEFD": ...` inside `list_price`. -/
def altLoop (lp : PMap) (model : String) (s : Char) : List Char → Option ℚ
  | [] => none
  | a :: rest =>
    if a = s then altLoop lp model s rest
    else
      match lp (strSubFR a model) with
      | some v => some v
      | none => altLoop lp model s rest

/-- The token test `any(t in model for t in ("D720", "D720S", "E720", "E820"))`. -/
def class820B (model : String) : Bool :=
  strHas model "D720" || strHas model "D720S" || strHas model "E720" ||
    strHas model "E820"

/-- The token test `any(t in model for t in ("D740", "E740", "E840"))`. -/
def class840B (model : String) : Bool :=
  strHas model "D740" || strHas model "E740" || strHas model "E840"

/-- Model of `list_price`: direct hit, then cross-family fallback with
Python `or` between the two class candidates, then the alternate-series
letter loop. -/
def list_price (model : String) (lp : PMap) : Option ℚ :=
  match lp model with
  | some v => some v
  | none =>
    match (capSearch model.data).map (fun g => String.mk g ++ "K") with
    | some f =>
      if class820B model then
        pyOrQ (lp ("FR-A820-" ++ f ++ "-1")) (lp ("FR-E820-" ++ f ++ "-1"))
      else if class840B model then
        pyOrQ (lp ("FR-A840-" ++ f ++ "-1")) (lp ("FR-E840-" ++ f ++ "-1"))
      else
        match frLetter model with
        | some se => altLoop lp model se ['A', 'E', 'F', 'D']
        | none => none
    | none => none

/-! ## Claim C7: the secondary-price (`1.27`) fallback -/

/-- Candidate keys as the claim words them: a key containing `720`
contributes the E820-root candidate AND a key containing `740` contributes
the E840-root candidate, tried in order, first hit winning. -/
def secCands_claim (model cap : String) : List String :=
  (if strHas model "720" then ["FR-E820-" ++ cap ++ "-1"] else []) ++
    (if strHas model "740" then ["FR-E840-" ++ cap ++ "-1"] else [])

/-- The claim's reading of the secondary-price fallback. -/
def fallback127_claim (model : String) (pm : PMap) : Option ℚ :=
  match (capSearch model.data).map (fun g => String.mk g ++ "K") with
  | none => none
  | some cap => (secCands_claim model cap).findSome? pm

/-- Candidate keys as the code actually behaves: the `720` test shadows the
`740` test, so a key containing both markers only ever tries the E820 root. -/
def secCands_amended (model cap : String) : List String :=
  if strHas model "720" then ["FR-E820-" ++ cap ++ "-1"]
  else if strHas model "740" then ["FR-E840-" ++ cap ++ "-1"]
  else []

/-- C7 counterexample: for a key containing both the `720` and `740`
markers, the claim's candidate chain would hit the E840-root entry, but the
code commits to the (missing) E820 root and yields no secondary price. -/
theorem c7_counterexample :
    fallback127 "FR-E720-740K"
        (fun k => if k = "FR-E840-740K-1" then some 5 else none) = none ∧
      resolve127 "FR-E720-740K"
        (fun k => if k = "FR-E840-740K-1" then some 5 else none) = none ∧
      fallback127_claim "FR-E720-740K"
        (fun k => if k = "FR-E840-740K-1" then some 5 else none) = some 5 := by
  decide

/-- C7 (amended): for every inventory key missing from the secondary-price
index, if no capacity token can be extracted the secondary price is absent;
otherwise a key containing `720` is looked up only under the reconstructed
E820-root key (even when the key also contains `740`), a key containing
`740` but not `720` only under the E840-root key; exhausting the candidates
leaves the price absent, a normal terminal state — resolution is a total
function and never throws. -/
theorem c7_fallback127_amended (model : String) (pm : PMap)
    (h : pm model = none) :
    resolve127 model pm =
      match (capSearch model.data).map (fun g => String.mk g ++ "K") with
      | none => none
      | some cap => (secCands_amended model cap).findSome? pm := by
  rw [resolve127, h]
  rw [fallback127]
  cases (capSearch model.data).map (fun g => String.mk g ++ "K") with
  | none => rfl
  | some cap =>
    simp only [secCands_amended]
    by_cases h720 : strHas model "720"
    · simp only [h720, if_true, List.findSome?]
      cases pm ("FR-E820-" ++ cap ++ "-1") <;> rfl
    · simp only [h720, if_false, Bool.false_eq_true]
      by_cases h740 : strHas model "740"
      · simp only [h740, if_true, List.findSome?]
        cases pm ("FR-E840-" ++ cap ++ "-1") <;> rfl
      · simp only [h740, if_false, Bool.false_eq_true, List.findSome?]

/-- C7 witness: the amended fallback at a concrete key and the empty index. -/
theorem c7_witness :
    resolve127 "FR-D720S-0.4K" emptyPM =
      match (capSearch "FR-D720S-0.4K".data).map
          (fun g => String.mk g ++ "K") with
      | none => none
      | some cap => (secCands_amended "FR-D720S-0.4K" cap).findSome? emptyPM :=
  c7_fallback127_amended "FR-D720S-0.4K" emptyPM rfl

/-! ## Claim C1: the list-price fallback -/

/-- Class candidate keys as the claim words them (two roots, first index hit
accepted). -/
def classCands_claim (model f : String) : List String :=
  if class820B model then
    ["FR-A820-" ++ f ++ "-1", "FR-E820-" ++ f ++ "-1"]
  else if class840B model then
    ["FR-A840-" ++ f ++ "-1", "FR-E840-" ++ f ++ "-1"]
  else []

/-- Alternate-family candidate keys: the letter after `FR-` replaced by each
letter of `AEFD` (its own letter skipped), capacity kept. -/
def altCands (s : Char) (model : String) : List String :=
  ((['A', 'E', 'F', 'D'].filter (fun a => a ≠ s)).map
    (fun a => strSubFR a model))

/-- The claim's reading of the list-price resolution: direct hit, then the
class candidates (first index hit accepted), then — if still unresolved —
the alternate-family letters. -/
def list_price_claim (model : String) (lp : PMap) : Option ℚ :=
  match lp model with
  | some v => some v
  | none =>
    match (capSearch model.data).map (fun g => String.mk g ++ "K") with
    | none => none
    | some f =>
      match (classCands_claim model f).findSome? lp with
      | some v => some v
      | none =>
        match frLetter model with
        | some s => (altCands s model).findSome? lp
        | none => none

/-- C1 counterexample: both class candidates miss for this 720-class key, so
the claim's chain would continue to letter substitution and find
`FR-A720-5.5K`; the code instead returns the class branch's miss directly
and resolves no list price. -/
theorem c1_counterexample :
    list_price "FR-D720-5.5K"
        (fun k => if k = "FR-A720-5.5K" then some 100 else none) = none ∧
      list_price_claim "FR-D720-5.5K"
        (fun k => if k = "FR-A720-5.5K" then some 100 else none) =
        some 100 := by
  decide

/-- The code's list-price resolution as a declarative candidate chain. -/
def list_price_amended (model : String) (lp : PMap) : Option ℚ :=
  match lp model with
  | some v => some v
  | none =>
    match (capSearch model.data).map (fun g => String.mk g ++ "K") with
    | none => none
    | some f =>
      if class820B model then
        match lp ("FR-A820-" ++ f ++ "-1") with
        | some v => if v = 0 then lp ("FR-E820-" ++ f ++ "-1") else some v
        | none => lp ("FR-E820-" ++ f ++ "-1")
      else if class840B model then
        match lp ("FR-A840-" ++ f ++ "-1") with
        | some v => if v = 0 then lp ("FR-E840-" ++ f ++ "-1") else some v
        | none => lp ("FR-E840-" ++ f ++ "-1")
      else
        match frLetter model with
        | some s => (altCands s model).findSome? lp
        | none => none

theorem altLoop_eq (lp : PMap) (model : String) (s : Char) :
    ∀ alts : List Char,
      altLoop lp model s alts =
        ((alts.filter (fun a => a ≠ s)).map
          (fun a => strSubFR a model)).findSome? lp
  | [] => rfl
  | a :: rest => by
    rw [show altLoop lp model s (a :: rest) =
        (if a = s then altLoop lp model s rest
         else
           match lp (strSubFR a model) with
           | some v => some v
           | none => altLoop lp model s rest) from rfl]
    by_cases h : a = s
    · rw [if_pos h, altLoop_eq lp model s rest]
      have hf : (a :: rest).filter (fun x => x ≠ s) =
          rest.filter (fun x => x ≠ s) := by
        rw [List.filter_cons, if_neg (by simp [h])]
      rw [hf]
    · rw [if_neg h]
      have hf : (a :: rest).filter (fun x => x ≠ s) =
          a :: rest.filter (fun x => x ≠ s) := by
        rw [List.filter_cons, if_pos (by simp [h])]
      rw [hf, List.map_cons, List.findSome?_cons]
      cases lp (strSubFR a model) with
      | some v => rfl
      | none => exact altLoop_eq lp model s rest

/-- C1 (amended): the resolved list price follows the code's chain — direct
hit first (a zero price accepted); then for a key matching one of the fixed
`720/820`-class tokens the `A820` root is tried and accepted only if its
price is nonzero, with the `E820` root's lookup result returned otherwise,
and this class result is final even when both candidates miss (the letter
substitution is not reached); symmetrically for `740/840`-class keys with
`A840`/`E840`; only a key outside both class token sets proceeds to
alternate-family letter substitution over `A`, `E`, `F`, `D` in order
(skipping its own letter, a zero price accepted); exhausting all candidates
leaves the list price absent. -/
theorem c1_list_price_amended (model : String) (lp : PMap) :
    list_price model lp = list_price_amended model lp := by
  unfold list_price list_price_amended
  cases lp model with
  | some v => rfl
  | none =>
    cases (capSearch model.data).map (fun g => String.mk g ++ "K") with
    | none => rfl
    | some f =>
      simp only
      by_cases h8 : class820B model
      · simp only [h8, if_true, pyOrQ]
        cases lp ("FR-A820-" ++ f ++ "-1") with
        | none => rfl
        | some v =>
          by_cases hv : v = 0
          · simp [hv]
          · simp [hv]
      · simp only [h8, Bool.false_eq_true, if_false]
        by_cases h4 : class840B model
        · simp only [h4, if_true, pyOrQ]
          cases lp ("FR-A840-" ++ f ++ "-1") with
          | none => rfl
          | some v =>
            by_cases hv : v = 0
            · simp [hv]
            · simp [hv]
        · simp only [h4, Bool.false_eq_true, if_false]
          cases frLetter model with
          | none => rfl
          | some s => exact altLoop_eq lp model s ['A', 'E', 'F', 'D']

/-! ## The inventory pipeline -/

/-- An inventory row after CSV parsing: the raw identifier cell plus the
numeric `Qty owned` and the already comma-stripped `Total cost` values. -/
structure InvRow where
  name : String
  qtyOwned : ℚ
  totalCost : ℚ
deriving DecidableEq

/-- Python/numpy `astype(int)` on a float: truncation toward zero. -/
def pyInt (q : ℚ) : ℤ := if 0 ≤ q then Rat.floor q else Rat.ceil q

/-- The denylist `{"FR-S520SE-0.2K-19"}`. -/
def denylist : List String := ["FR-S520SE-0.2K-19"]

/-- The filter `(inv["Qty owned"] > 0) & ~inv["Model"].isin({...})`,
expressed on the already-normalized model key. -/
def eligibleCore (model : String) (qtyOwned : ℚ) : Bool :=
  decide (0 < qtyOwned) && decide (model ∉ denylist)

/-- Row-level eligibility: the `Model` column is computed first, then the
filter applies to it. -/
def eligibleB (r : InvRow) : Bool :=
  eligibleCore (normalizeKey r.name) r.qtyOwned

/-- A fully resolved report record (one row of the final frame, before the
`SL` sequence numbers are attached by the renderer-facing step). -/
structure Rec where
  model : String
  qty : ℤ
  totalCost : ℚ
  cogs : PFloat
  cogsM : PFloat
  p127 : Option ℚ
  series : String
  listPrice : Option ℚ
  disc20 : PFloat
  disc25 : PFloat
  disc30 : PFloat
  gppct : PFloat
  capacity : ℚ
  seriesOrder : ℚ
deriving DecidableEq

/-- Column computation for one filtered row, given the two price indexes and
the row's already-computed model key. A `none` result models the exception
raised when the capacity group is not a valid float literal. -/
def buildRecCore (lp pm : PMap) (model : String) (qtyOwned totalCost : ℚ) :
    Option Rec :=
  match capacity_val model with
  | none => none
  | some cap =>
    let q : ℤ := pyInt qtyOwned
    let cogs := PFloat.div (PFloat.val totalCost) (PFloat.val (q : ℚ))
    let lpv := list_price model lp
    let lpF := ofOpt lpv
    some
      { model := model
        qty := q
        totalCost := totalCost
        cogs := cogs
        cogsM := PFloat.mul cogs (PFloat.val 1.75)
        p127 := resolve127 model pm
        series := series_tag model
        listPrice := lpv
        disc20 := PFloat.mul lpF (PFloat.val 0.80)
        disc25 := PFloat.mul lpF (PFloat.val 0.75)
        disc30 := PFloat.mul lpF (PFloat.val 0.70)
        gppct := PFloat.mul
          (PFloat.div (PFloat.sub lpF cogs) cogs) (PFloat.val 100)
        capacity := cap
        seriesOrder := orderOf (series_tag model) }

/-- Record construction from a raw row: normalize the identifier, then
compute every derived column from it. -/
def buildRec (lp pm : PMap) (r : InvRow) : Option Rec :=
  buildRecCore lp pm (normalizeKey r.name) r.qtyOwned r.totalCost

/-- Column computation over the whole filtered frame; any per-row exception
aborts the run. -/
def mapOpt (f : InvRow → Option Rec) : List InvRow → Option (List Rec)
  | [] => some []
  | x :: xs =>
    match f x, mapOpt f xs with
    | some y, some ys => some (y :: ys)
    | _, _ => none

/-! ### The final sort: `sort_values(["Capacity", "SeriesOrder"])`

Pandas multi-column sorting goes through `numpy.lexsort`, which is a stable
sort by the given keys; any stable sort by the lexicographic key computes
the same list, so the model uses stable insertion sort. -/

/-- Sort key of a record. -/
def rkey (r : Rec) : ℚ × ℚ := (r.capacity, r.seriesOrder)

/-- Lexicographic strict order on (capacity, series-order) keys. -/
def lexLT (a b : ℚ × ℚ) : Prop :=
  a.1 < b.1 ∨ (a.1 = b.1 ∧ a.2 < b.2)

/-- Lexicographic weak order on keys. -/
def lexLE (a b : ℚ × ℚ) : Prop :=
  a.1 < b.1 ∨ (a.1 = b.1 ∧ a.2 ≤ b.2)

instance lexLTDec (a b : ℚ × ℚ) : Decidable (lexLT a b) := by
  unfold lexLT
  exact inferInstance

instance lexLEDec (a b : ℚ × ℚ) : Decidable (lexLE a b) := by
  unfold lexLE
  exact inferInstance

/-- Stable insertion: `x` goes after every strictly smaller key and before
the first element whose key is not strictly smaller (so before equal keys of
later-inserted elements — the earlier element inserted last stays first). -/
def insRec (x : Rec) : List Rec → List Rec
  | [] => [x]
  | y :: ys => if lexLT (rkey y) (rkey x) then y :: insRec x ys
               else x :: y :: ys

/-- Stable insertion sort by (capacity, series-order). -/
def sortRecs : List Rec → List Rec
  | [] => []
  | x :: xs => insRec x (sortRecs xs)

/-- The full core pipeline on the inventory table: filter, build records,
sort. -/
def pipelineRecs (lp pm : PMap) (rows : List InvRow) : Option (List Rec) :=
  match mapOpt (buildRec lp pm) (rows.filter eligibleB) with
  | none => none
  | some recs => some (sortRecs recs)

/-! ### Order facts for the lexicographic sort key -/

theorem lexLE_of_lt {a b : ℚ × ℚ} (h : lexLT a b) : lexLE a b := by
  rcases h with h | ⟨h1, h2⟩
  · exact Or.inl h
  · exact Or.inr ⟨h1, le_of_lt h2⟩

theorem lexLE_of_not_lt {a b : ℚ × ℚ} (h : ¬ lexLT a b) : lexLE b a := by
  unfold lexLT at h
  push_neg at h
  rcases lt_trichotomy b.1 a.1 with h1 | h1 | h1
  · exact Or.inl h1
  · exact Or.inr ⟨h1, h.2 h1.symm⟩
  · exact absurd h1 h.1.not_lt

theorem lexLE_trans {a b c : ℚ × ℚ} (h1 : lexLE a b) (h2 : lexLE b c) :
    lexLE a c := by
  rcases h1 with h1 | ⟨h1, h1'⟩ <;> rcases h2 with h2 | ⟨h2, h2'⟩
  · exact Or.inl (h1.trans h2)
  · exact Or.inl (h2 ▸ h1)
  · exact Or.inl (h1 ▸ h2)
  · exact Or.inr ⟨h1.trans h2, h1'.trans h2'⟩

theorem lexLT_irrefl {a : ℚ × ℚ} : ¬ lexLT a a := by
  rintro (h | ⟨-, h⟩) <;> exact lt_irrefl _ h

/-! ### Insertion sort facts -/

theorem insRec_perm (x : Rec) : ∀ l : List Rec, (insRec x l).Perm (x :: l)
  | [] => List.Perm.refl _
  | y :: ys => by
    rw [insRec]
    by_cases h : lexLT (rkey y) (rkey x)
    · rw [if_pos h]
      exact ((insRec_perm x ys).cons y).trans (List.Perm.swap x y ys)
    · rw [if_neg h]

theorem sortRecs_perm : ∀ l : List Rec, (sortRecs l).Perm l
  | [] => List.Perm.refl _
  | x :: xs =>
    (insRec_perm x (sortRecs xs)).trans ((sortRecs_perm xs).cons x)

/-- The record-level order used in the sortedness statement. -/
def recLE (a b : Rec) : Prop := lexLE (rkey a) (rkey b)

theorem insRec_pairwise {x : Rec} :
    ∀ {l : List Rec}, l.Pairwise recLE → (insRec x l).Pairwise recLE := by
  intro l
  induction l with
  | nil => intro _; simp [insRec, List.pairwise_singleton]
  | cons y ys ih =>
    intro h
    rw [List.pairwise_cons] at h
    obtain ⟨hy, hys⟩ := h
    rw [insRec]
    by_cases hlt : lexLT (rkey y) (rkey x)
    · rw [if_pos hlt, List.pairwise_cons]
      refine ⟨?_, ih hys⟩
      intro z hz
      rcases List.mem_cons.mp ((insRec_perm x ys).mem_iff.mp hz) with rfl | hz'
      · exact lexLE_of_lt hlt
      · exact hy z hz'
    · rw [if_neg hlt, List.pairwise_cons]
      refine ⟨?_, List.pairwise_cons.mpr ⟨hy, hys⟩⟩
      intro z hz
      rcases List.mem_cons.mp hz with rfl | hz'
      · exact lexLE_of_not_lt hlt
      · exact lexLE_trans (lexLE_of_not_lt hlt) (hy z hz')

theorem sortRecs_pairwise : ∀ l : List Rec, (sortRecs l).Pairwise recLE
  | [] => List.Pairwise.nil
  | _ :: xs => insRec_pairwise (sortRecs_pairwise xs)

theorem insRec_filter (k : ℚ × ℚ) (x : Rec) :
    ∀ l : List Rec,
      (insRec x l).filter (fun r => decide (rkey r = k)) =
        (if rkey x = k then [x] else []) ++
          l.filter (fun r => decide (rkey r = k))
  | [] => by
    by_cases hx : rkey x = k <;>
      simp [insRec, List.filter_cons, hx]
  | y :: ys => by
    rw [insRec]
    by_cases hlt : lexLT (rkey y) (rkey x)
    · rw [if_pos hlt, List.filter_cons]
      by_cases hy : rkey y = k
      · have hx : ¬ rkey x = k := by
          intro hx
          exact lexLT_irrefl (hx ▸ hy ▸ hlt)
        rw [insRec_filter k x ys]
        simp [hy, hx, List.filter_cons]
      · rw [insRec_filter k x ys]
        simp [hy, List.filter_cons]
    · rw [if_neg hlt, List.filter_cons]
      by_cases hx : rkey x = k
      · simp [hx, List.filter_cons]
      · simp [hx, List.filter_cons]

theorem sortRecs_filter (k : ℚ × ℚ) :
    ∀ l : List Rec,
      (sortRecs l).filter (fun r => decide (rkey r = k)) =
        l.filter (fun r => decide (rkey r = k))
  | [] => rfl
  | x :: xs => by
    rw [sortRecs, insRec_filter k x (sortRecs xs), sortRecs_filter k xs,
      List.filter_cons]
    by_cases hx : rkey x = k <;> simp [hx]

/-! ### Facts about record construction -/

theorem buildRec_fields {lp pm : PMap} {x : InvRow} {r : Rec}
    (h : buildRec lp pm x = some r) :
    capacity_val r.model = some r.capacity ∧
      r.seriesOrder = orderOf (series_tag r.model) := by
  unfold buildRec buildRecCore at h
  rcases hc : capacity_val (normalizeKey x.name) with - | cap
  · rw [hc] at h; cases h
  · rw [hc] at h
    simp only [Option.some.injEq] at h
    subst h
    exact ⟨hc, rfl⟩

theorem mapOpt_filterMap {f : InvRow → Option Rec} :
    ∀ {l : List InvRow} {m : List Rec}, mapOpt f l = some m →
      l.filterMap f = m
  | [], m, h => by
    cases h; rfl
  | x :: xs, m, h => by
    rw [mapOpt] at h
    rcases hx : f x with - | y <;> rw [hx] at h
    · cases h
    · rcases hxs : mapOpt f xs with - | ys <;> rw [hxs] at h
      · cases h
      · cases h
        rw [List.filterMap_cons, hx, mapOpt_filterMap hxs]

theorem mapOpt_mem {f : InvRow → Option Rec} :
    ∀ {l : List InvRow} {m : List Rec}, mapOpt f l = some m →
      ∀ r ∈ m, ∃ x ∈ l, f x = some r
  | [], m, h => by
    cases h; intro r hr; cases hr
  | x :: xs, m, h => by
    rw [mapOpt] at h
    rcases hx : f x with - | y <;> rw [hx] at h
    · cases h
    · rcases hxs : mapOpt f xs with - | ys <;> rw [hxs] at h
      · cases h
      · cases h
        intro r hr
        rcases List.mem_cons.mp hr with rfl | hr'
        · exact ⟨x, by simp, hx⟩
        · obtain ⟨z, hz, hfz⟩ := mapOpt_mem hxs r hr'
          exact ⟨z, by simp [hz], hfz⟩

/-- C2: the final records are totally ordered ascending by capacity
(extracted from the key; an inextractable capacity ranks as `0.0`), ties
broken ascending by the family order under `{D:0, E:1, F:2, A:3, H:4}` with
any unmapped tag (including the empty tag) ranking `99`, and remaining ties
preserve the original input order: the output is a permutation of the
filtered, record-built input whose key-equal subsequences appear in input
order. -/
theorem c2_sort_order (lp pm : PMap) (rows : List InvRow) (out : List Rec)
    (h : pipelineRecs lp pm rows = some out) :
    out.Pairwise recLE ∧
      out.Perm ((rows.filter eligibleB).filterMap (buildRec lp pm)) ∧
      (∀ k : ℚ × ℚ,
        out.filter (fun r => decide (rkey r = k)) =
          ((rows.filter eligibleB).filterMap (buildRec lp pm)).filter
            (fun r => decide (rkey r = k))) ∧
      ∀ r ∈ out, capacity_val r.model = some r.capacity ∧
        (capSearch r.model.data = none → r.capacity = 0) ∧
        r.seriesOrder = orderOf (series_tag r.model) := by
  unfold pipelineRecs at h
  rcases hm : mapOpt (buildRec lp pm) (rows.filter eligibleB) with - | mid <;>
    rw [hm] at h
  · cases h
  · cases h
    have hfm := mapOpt_filterMap hm
    refine ⟨sortRecs_pairwise mid, ?_, ?_, ?_⟩
    · rw [hfm]; exact sortRecs_perm mid
    · intro k; rw [hfm]; exact sortRecs_filter k mid
    · intro r hr
      have hr' : r ∈ mid := (sortRecs_perm mid).mem_iff.mp hr
      obtain ⟨x, -, hx⟩ := mapOpt_mem hm r hr'
      obtain ⟨h1, h2⟩ := buildRec_fields hx
      refine ⟨h1, ?_, h2⟩
      intro hcs
      simp only [capacity_val, hcs] at h1
      exact (Option.some.inj h1).symm

/-- C3 counterexample: a resolved record with `totalCost = 0` (so
`cogs = 0`) and a present list price; the claim says `grossMarginPct` must
be absent, but the code computes `(120 - 0)/0 * 100 = +inf`, which pandas
does not treat as NA (it is rendered, as `inf%`). -/
theorem c3_counterexample :
    (buildRec (fun k => if k = "FR-D720S-0.4K" then some 120 else none)
          emptyPM ⟨"FR-D720S-0.4K", 2, 0⟩).map
        (fun r => (r.cogs, r.listPrice, r.gppct)) =
      some (PFloat.val 0, some 120, PFloat.inf true) ∧
      PFloat.isna (PFloat.inf true) = false := by
  decide

/-- C3 (amended): for every resolved record with integral positive quantity,
`cogs == totalCost/qty` exactly and `cogsMarked == cogs * 1.75`; each
`discount_r == listPrice * r` for `r` in `{0.80, 0.75, 0.70}` when the list
price is present, else absent; and `grossMarginPct == (listPrice - cogs) /
cogs * 100` when the list price is present and `cogs ≠ 0`, absent when the
list price is absent — but when the list price is present and `cogs == 0`
the value is a signed infinity (NaN only for a zero list price), not
absent. -/
theorem c3_metrics_amended (lp pm : PMap) (x : InvRow) (r : Rec)
    (hb : buildRec lp pm x = some r) (hq : 1 ≤ x.qtyOwned) :
    r.cogs = PFloat.val (r.totalCost / (r.qty : ℚ)) ∧
      r.cogsM = PFloat.val (r.totalCost / (r.qty : ℚ) * 1.75) ∧
      (r.listPrice = none →
        r.disc20 = PFloat.nan ∧ r.disc25 = PFloat.nan ∧
          r.disc30 = PFloat.nan ∧ r.gppct = PFloat.nan) ∧
      ∀ v : ℚ, r.listPrice = some v →
        r.disc20 = PFloat.val (v * 0.80) ∧ r.disc25 = PFloat.val (v * 0.75) ∧
          r.disc30 = PFloat.val (v * 0.70) ∧
          (r.totalCost / (r.qty : ℚ) ≠ 0 →
            r.gppct = PFloat.val ((v - r.totalCost / (r.qty : ℚ)) /
              (r.totalCost / (r.qty : ℚ)) * 100)) ∧
          (r.totalCost / (r.qty : ℚ) = 0 →
            r.gppct = if 0 < v then PFloat.inf true
              else if v < 0 then PFloat.inf false else PFloat.nan) := by
  unfold buildRec buildRecCore at hb
  rcases hc : capacity_val (normalizeKey x.name) with - | cap <;>
    rw [hc] at hb
  · cases hb
  · simp only [Option.some.injEq] at hb
    subst hb
    simp only
    have hq1 : (1 : ℤ) ≤ pyInt x.qtyOwned := by
      rw [pyInt, if_pos (le_trans zero_le_one hq)]
      exact Rat.le_floor.mpr (by exact_mod_cast hq)
    have hqz : ((pyInt x.qtyOwned : ℤ) : ℚ) ≠ 0 := by
      have : (0 : ℚ) < ((pyInt x.qtyOwned : ℤ) : ℚ) := by
        exact_mod_cast lt_of_lt_of_le zero_lt_one hq1
      exact ne_of_gt this
    have hcogs : PFloat.div (PFloat.val x.totalCost)
        (PFloat.val ((pyInt x.qtyOwned : ℤ) : ℚ)) =
        PFloat.val (x.totalCost / ((pyInt x.qtyOwned : ℤ) : ℚ)) := by
      simp only [PFloat.div, hqz, ne_eq, not_false_eq_true, if_true]
    refine ⟨hcogs, ?_, ?_, ?_⟩
    · rw [hcogs]; rfl
    · intro hnone
      rw [hnone]
      simp [ofOpt, PFloat.mul, PFloat.sub, PFloat.div]
    · intro v hv
      rw [hv]
      simp only [ofOpt]
      refine ⟨rfl, rfl, rfl, ?_, ?_⟩
      · intro hcz
        rw [hcogs]
        simp only [PFloat.sub, PFloat.div, hcz, ne_eq, not_false_eq_true,
          if_true, PFloat.mul]
      · intro hcz
        rw [hcogs, hcz]
        by_cases hv0 : v = 0
        · subst hv0
          norm_num [PFloat.sub, PFloat.div, PFloat.mul]
        · by_cases hvp : 0 < v
          · norm_num [PFloat.sub, PFloat.div, PFloat.mul, hv0, hvp]
          · have hvn : v < 0 := lt_of_le_of_ne (le_of_not_lt hvp) hv0
            norm_num [PFloat.sub, PFloat.div, PFloat.mul, hv0, hvp,
              not_lt_of_lt hvn, hvn]

/-- C3 witness: the amended metric equations at a concrete resolved record
(the spec's own example scenario: qty 3, total cost 300, list price 120). -/
theorem c3_witness :
    (let r : Rec := ⟨"FR-D720S-0.4K", 3, 300, PFloat.val 100, PFloat.val 175,
        none, "D", some 120, PFloat.val 96, PFloat.val 90, PFloat.val 84,
        PFloat.val 20, 0.4, 0⟩
     r.cogs = PFloat.val (r.totalCost / (r.qty : ℚ)) ∧
      r.cogsM = PFloat.val (r.totalCost / (r.qty : ℚ) * 1.75) ∧
      (r.listPrice = none →
        r.disc20 = PFloat.nan ∧ r.disc25 = PFloat.nan ∧
          r.disc30 = PFloat.nan ∧ r.gppct = PFloat.nan) ∧
      ∀ v : ℚ, r.listPrice = some v →
        r.disc20 = PFloat.val (v * 0.80) ∧ r.disc25 = PFloat.val (v * 0.75) ∧
          r.disc30 = PFloat.val (v * 0.70) ∧
          (r.totalCost / (r.qty : ℚ) ≠ 0 →
            r.gppct = PFloat.val ((v - r.totalCost / (r.qty : ℚ)) /
              (r.totalCost / (r.qty : ℚ)) * 100)) ∧
          (r.totalCost / (r.qty : ℚ) = 0 →
            r.gppct = if 0 < v then PFloat.inf true
              else if v < 0 then PFloat.inf false else PFloat.nan)) :=
  c3_metrics_amended
    (fun k => if k = "FR-D720S-0.4K" then some 120 else none) emptyPM
    ⟨"FR-D720S-0.4K", 3, 300⟩ _ (by decide) (by decide)

/-- C6: an inventory row appears in the output record set iff its quantity
is strictly positive and its (normalized) identifier is not in the denylist;
a failing row is filtered out entirely, not soft-deleted, and this is no
error. -/
theorem c6_filter_iff (rows : List InvRow) (r : InvRow) :
    r ∈ rows.filter eligibleB ↔
      r ∈ rows ∧ 0 < r.qtyOwned ∧ normalizeKey r.name ∉ denylist := by
  rw [List.mem_filter]
  simp [eligibleB, eligibleCore]

/-- C9: during inventory normalization, exactly the identifier whose
split/strip step yields `FR-D720S-025-NA` is rewritten to `FR-D720S-0.4K`
before the eligibility filter and before record construction (hence before
every price lookup); every other identifier passes through the remapping
unchanged — the row behaves exactly as if its raw identifier were the
remapped (resp. split/stripped) key. -/
theorem c9_remap (lp pm : PMap) (r : InvRow) :
    (preKey r.name = remapSrc →
      eligibleB r = eligibleB ⟨remapTgt, r.qtyOwned, r.totalCost⟩ ∧
        buildRec lp pm r =
          buildRec lp pm ⟨remapTgt, r.qtyOwned, r.totalCost⟩) ∧
      (preKey r.name ≠ remapSrc →
        eligibleB r = eligibleB ⟨preKey r.name, r.qtyOwned, r.totalCost⟩ ∧
          buildRec lp pm r =
            buildRec lp pm ⟨preKey r.name, r.qtyOwned, r.totalCost⟩) := by
  constructor
  · intro h
    have h1 : normalizeKey r.name = remapTgt := by
      rw [normalizeKey, if_pos h]
    have h2 : normalizeKey remapTgt = remapTgt := by decide
    constructor
    · rw [eligibleB, eligibleB, h1]
      rw [show (⟨remapTgt, r.qtyOwned, r.totalCost⟩ : InvRow).name = remapTgt
        from rfl, h2]
    · rw [buildRec, buildRec, h1]
      rw [show (⟨remapTgt, r.qtyOwned, r.totalCost⟩ : InvRow).name = remapTgt
        from rfl, h2]
  · intro h
    have h1 : normalizeKey r.name = preKey r.name := by
      rw [normalizeKey, if_neg h]
    have h2 : normalizeKey (preKey r.name) = preKey r.name := by
      rw [normalizeKey, preKey_preKey, if_neg h]
    constructor
    · rw [eligibleB, eligibleB, h1]
      rw [show (⟨preKey r.name, r.qtyOwned, r.totalCost⟩ : InvRow).name =
        preKey r.name from rfl, h2]
    · rw [buildRec, buildRec, h1]
      rw [show (⟨preKey r.name, r.qtyOwned, r.totalCost⟩ : InvRow).name =
        preKey r.name from rfl, h2]

/-- C9 witness: the remapped identifier behaves exactly like the literal
target key, here through a compound `"||"` identifier. -/
theorem c9_witness :
    eligibleB ⟨"x||FR-D720S-025-NA", 3, 300⟩ =
        eligibleB ⟨remapTgt, 3, 300⟩ ∧
      buildRec emptyPM emptyPM ⟨"x||FR-D720S-025-NA", 3, 300⟩ =
        buildRec emptyPM emptyPM ⟨remapTgt, 3, 300⟩ :=
  (c9_remap emptyPM emptyPM ⟨"x||FR-D720S-025-NA", 3, 300⟩).1 (by decide)

/-! ## Claim C8: header resolution -/

/-- The v0.7 precedence: exact header `"Model Name"`, then `"Name"`, then
the literal fallback `"Model"`. -/
def col_src (cols : List String) : String :=
  if "Model Name" ∈ cols then "Model Name"
  else if "Name" ∈ cols then "Name"
  else "Model"

/-- Column access `inv[col_src]` on the stripped headers: `none` models the
uncaught pandas `KeyError` that aborts the run when even the fallback
`"Model"` column is absent. -/
def selectModelCol (cols : List String) : Option String :=
  if col_src cols ∈ cols then some (col_src cols) else none

/-- Access to the exact `"Qty owned"` column. -/
def selectQtyCol (cols : List String) : Option String :=
  if "Qty owned" ∈ cols then some "Qty owned" else none

/-- Access to the exact `"Total cost"` column. -/
def selectCostCol (cols : List String) : Option String :=
  if "Total cost" ∈ cols then some "Total cost" else none

/-- ASCII lowercase of a string. -/
def lowerS (s : String) : String := String.mk (lowerL s.data)

/-- The claim's synonym rule for the identifier field: any header containing
both "model" and "name", or equal to "name", or containing both "material"
and "name", case-insensitively. -/
def modelHeader_claim (h : String) : Bool :=
  (strHasCI h "model" && strHasCI h "name") || lowerS h = "name" ||
    (strHasCI h "material" && strHasCI h "name")

/-- C8 counterexample: the header `"model name"` satisfies the claim's
identifier synonym rule, but the code's exact-match chain falls through to
the absent `"Model"` column and the run dies with a `KeyError` — there is no
synonym matching and no `MissingColumnError` diagnostic. -/
theorem c8_counterexample :
    modelHeader_claim "model name" = true ∧
      selectModelCol (["model name", "Qty owned", "Total cost"].map pyStrip) =
        none := by
  decide

/-- C8 (amended): header resolution is exact-match only, on
whitespace-stripped headers: the identifier column is `"Model Name"` if
present, else `"Name"`, else `"Model"`; the quantity and cost columns are
the exact headers `"Qty owned"` and `"Total cost"`; a required column that
is absent after this chain aborts the whole run with an uncaught `KeyError`
naming only the missing column (no observed-header diagnostic, no synonym
sets, no case-insensitivity). -/
theorem c8_header_amended (cols : List String) :
    ("Model Name" ∈ cols.map pyStrip →
      selectModelCol (cols.map pyStrip) = some "Model Name") ∧
      ("Model Name" ∉ cols.map pyStrip → "Name" ∈ cols.map pyStrip →
        selectModelCol (cols.map pyStrip) = some "Name") ∧
      ("Model Name" ∉ cols.map pyStrip → "Name" ∉ cols.map pyStrip →
        "Model" ∈ cols.map pyStrip →
        selectModelCol (cols.map pyStrip) = some "Model") ∧
      ("Model Name" ∉ cols.map pyStrip → "Name" ∉ cols.map pyStrip →
        "Model" ∉ cols.map pyStrip →
        selectModelCol (cols.map pyStrip) = none) ∧
      ("Qty owned" ∈ cols.map pyStrip →
        selectQtyCol (cols.map pyStrip) = some "Qty owned") ∧
      ("Qty owned" ∉ cols.map pyStrip →
        selectQtyCol (cols.map pyStrip) = none) ∧
      ("Total cost" ∈ cols.map pyStrip →
        selectCostCol (cols.map pyStrip) = some "Total cost") ∧
      ("Total cost" ∉ cols.map pyStrip →
        selectCostCol (cols.map pyStrip) = none) := by
  refine ⟨?_, ?_, ?_, ?_, ?_, ?_, ?_, ?_⟩
  · intro h1
    simp [selectModelCol, col_src, h1]
  · intro h1 h2
    simp [selectModelCol, col_src, h1, h2]
  · intro h1 h2 h3
    simp [selectModelCol, col_src, h1, h2, h3]
  · intro h1 h2 h3
    simp [selectModelCol, col_src, h1, h2, h3]
  · intro h1
    simp [selectQtyCol, h1]
  · intro h1
    simp [selectQtyCol, h1]
  · intro h1
    simp [selectCostCol, h1]
  · intro h1
    simp [selectCostCol, h1]

/-- C8 witness: the exact-match chain on concrete headers. -/
theorem c8_witness :
    selectModelCol (["Model Name", "Qty owned"].map pyStrip) =
        some "Model Name" ∧
      selectQtyCol (["Model Name", "Qty owned"].map pyStrip) =
        some "Qty owned" :=
  ⟨(c8_header_amended ["Model Name", "Qty owned"]).1 (by decide),
    (c8_header_amended ["Model Name", "Qty owned"]).2.2.2.2.1 (by decide)⟩

/-! ## Claim C10: parsing the master list-price table -/

/-- Python truthiness filter over one row of already-stripped cells
(`applymap(str.strip)` then `[c for c in row if c]`). -/
def rowCells (row : List String) : List String :=
  (row.map pyStrip).filter (fun c => c ≠ "")

/-- `c.startswith("FR-")`. -/
def startsFR (c : String) : Bool := startsL "FR-".data c.data

/-- `c.split()[0]`: the first whitespace-delimited token. -/
def firstTok (c : String) : String :=
  String.mk ((c.data.dropWhile fun ch => isWS ch).takeWhile
    fun ch => !(isWS ch))

/-- `re.fullmatch(r"[\d,]+(?:\.\d+)?", s)`: one or more digits/commas, then
optionally a dot followed by one or more digits. Greedy munching needs no
backtracking here because a dot never extends the leading class. -/
def numCellB (s : String) : Bool :=
  let ip := s.data.takeWhile fun c => c.isDigit || c = ','
  let r := s.data.dropWhile fun c => c.isDigit || c = ','
  !ip.isEmpty &&
    (r.isEmpty ||
      (match r with
       | '.' :: ds => !ds.isEmpty && ds.all Char.isDigit
       | _ => false))

/-- `float(nxt.replace(",", ""))`; `none` models the `ValueError` raised
when the comma-stripped cell has no digits. -/
def convPrice (s : String) : Option ℚ :=
  pyFloat (s.data.filter fun c => c ≠ ',')

/-- The inner `for nxt in cells[i+1:]` loop with its `break`. -/
def findPrice : List String → Option String
  | [] => none
  | n :: ns => if numCellB n then some n else findPrice ns

/-- The cell scan of one row of the master price table; `none` models the
`ValueError` abort. -/
def scanCells (mp : PMap) : List String → Option PMap
  | [] => some mp
  | c :: rest =>
    if startsFR c then
      match findPrice rest with
      | none => scanCells mp rest
      | some n =>
        match convPrice n with
        | none => none
        | some v => scanCells (pupd mp (firstTok c) v) rest
    else scanCells mp rest

/-- `parse_listprice` over all rows, threading the dictionary; later
assignments overwrite earlier ones. -/
def foldRows (mp : PMap) : List (List String) → Option PMap
  | [] => some mp
  | row :: rest =>
    match scanCells mp (rowCells row) with
    | none => none
    | some mp2 => foldRows mp2 rest

/-- Model of `parse_listprice`. -/
def parse_listprice (rows : List (List String)) : Option PMap :=
  foldRows emptyPM rows

/-- The claim's declarative description of one row: scan the nonempty cells
in order; each `FR-` cell binds its first whitespace token to the converted
value of the first later numeric-looking cell, and contributes nothing when
there is none. -/
def scanSpec (mp : PMap) : List String → PMap
  | [] => mp
  | c :: rest =>
    scanSpec
      (if startsFR c then
        match (rest.find? numCellB).bind convPrice with
        | some v => pupd mp (firstTok c) v
        | none => mp
      else mp) rest

/-- C10 counterexample: the cell `","` consists entirely of digits and
commas (zero digits, one comma), so per the claim it would supply the price
for `FR-A`; the code instead calls `float("")` and the whole parse dies with
a `ValueError` — no index is produced at all. -/
theorem c10_counterexample :
    numCellB "," = true ∧
      (parse_listprice [["FR-A", ",", "7"]]).isNone = true := by
  decide

theorem findPrice_eq_find? : ∀ l : List String,
    findPrice l = l.find? numCellB
  | [] => rfl
  | n :: ns => by
    rw [findPrice, List.find?]
    by_cases h : numCellB n
    · rw [if_pos h, h]
    · rw [if_neg h, Bool.eq_false_iff.mpr h, findPrice_eq_find? ns]

theorem scanCells_eq_spec {cells : List String}
    (h : ∀ c ∈ cells, numCellB c → (convPrice c).isSome) :
    ∀ mp : PMap, scanCells mp cells = some (scanSpec mp cells) := by
  induction cells with
  | nil => intro mp; rfl
  | cons c rest ih =>
    intro mp
    have hrest : ∀ d ∈ rest, numCellB d → (convPrice d).isSome :=
      fun d hd => h d (List.mem_cons_of_mem c hd)
    rw [scanCells, scanSpec]
    by_cases hfr : startsFR c
    · rw [if_pos hfr, if_pos hfr, findPrice_eq_find?]
      rcases hf : rest.find? numCellB with - | n
      · simp only [Option.none_bind]
        exact ih hrest mp
      · have hnum : numCellB n := List.find?_some hf
        have hmem : n ∈ rest := List.mem_of_find?_eq_some hf
        have hconv : (convPrice n).isSome :=
          hrest n hmem hnum
        rcases hv : convPrice n with - | v
        · rw [hv] at hconv; cases hconv
        · simp only [Option.some_bind, hv]
          exact ih hrest (pupd mp (firstTok c) v)
    · rw [if_neg hfr, if_neg hfr]
      exact ih hrest mp

theorem foldRows_eq_spec :
    ∀ {rows : List (List String)},
      (∀ row ∈ rows, ∀ c ∈ rowCells row, numCellB c → (convPrice c).isSome) →
      ∀ mp : PMap, foldRows mp rows =
        some (rows.foldl (fun m row => scanSpec m (rowCells row)) mp)
  | [], _, mp => rfl
  | row :: rest, h, mp => by
    rw [foldRows,
      scanCells_eq_spec (h row (List.mem_cons_self row rest)) mp,
      List.foldl_cons]
    exact foldRows_eq_spec
      (fun rw2 hrw2 => h rw2 (List.mem_cons_of_mem row hrw2)) _

/-- C10 (amended): building the list-price index scans each row cell by
cell in order, skipping empty cells; for every cell starting with `FR-` the
model key is the cell's first whitespace token, and its price is the first
later cell consisting entirely of digits and commas with an optional decimal
part, commas stripped before conversion; a model cell with no such numeric
cell contributes no entry — provided every such numeric cell contains at
least one digit, since a digit-less cell (commas only) makes the float
conversion raise and aborts the whole parse. -/
theorem c10_parse_amended (rows : List (List String))
    (h : ∀ row ∈ rows, ∀ c ∈ rowCells row, numCellB c → (convPrice c).isSome) :
    parse_listprice rows =
      some (rows.foldl (fun m row => scanSpec m (rowCells row)) emptyPM) :=
  foldRows_eq_spec h emptyPM

/-- C10 witness: a concrete master-table row with a leading junk cell, a
compound model cell, an empty cell, and a thousands-separated price. -/
theorem c10_witness :
    parse_listprice [["x", " FR-D720S-0.4K 3ph ", "", "1,234.5"]] =
      some ([["x", " FR-D720S-0.4K 3ph ", "", "1,234.5"]].foldl
        (fun m row => scanSpec m (rowCells row)) emptyPM) :=
  c10_parse_amended [["x", " FR-D720S-0.4K 3ph ", "", "1,234.5"]] (by decide)

/-- C2 witness: a concrete two-row pipeline run, sorted by capacity with the
family tiebreak. -/
theorem c2_witness :
    [ ⟨"FR-E820-11K", 2, 50, PFloat.val 25, PFloat.val 43.75, none, "E",
        none, PFloat.nan, PFloat.nan, PFloat.nan, PFloat.nan, 11, 1⟩,
      ⟨"FR-A840-11K", 1, 40, PFloat.val 40, PFloat.val 70, none, "A",
        none, PFloat.nan, PFloat.nan, PFloat.nan, PFloat.nan, 11, 3⟩ ].Pairwise
        recLE ∧
      List.Perm
        [ ⟨"FR-E820-11K", 2, 50, PFloat.val 25, PFloat.val 43.75, none, "E",
            none, PFloat.nan, PFloat.nan, PFloat.nan, PFloat.nan, 11, 1⟩,
          ⟨"FR-A840-11K", 1, 40, PFloat.val 40, PFloat.val 70, none, "A",
            none, PFloat.nan, PFloat.nan, PFloat.nan, PFloat.nan, 11, 3⟩ ]
        (([⟨"FR-A840-11K", 1, 40⟩, ⟨"FR-E820-11K", 2, 50⟩].filter
            eligibleB).filterMap (buildRec emptyPM emptyPM)) ∧
      (∀ k : ℚ × ℚ,
        ([ ⟨"FR-E820-11K", 2, 50, PFloat.val 25, PFloat.val 43.75, none, "E",
              none, PFloat.nan, PFloat.nan, PFloat.nan, PFloat.nan, 11, 1⟩,
           ⟨"FR-A840-11K", 1, 40, PFloat.val 40, PFloat.val 70, none, "A",
              none, PFloat.nan, PFloat.nan, PFloat.nan, PFloat.nan, 11,
              3⟩ ] : List Rec).filter (fun r => decide (rkey r = k)) =
          (([⟨"FR-A840-11K", 1, 40⟩, ⟨"FR-E820-11K", 2, 50⟩].filter
              eligibleB).filterMap (buildRec emptyPM emptyPM)).filter
            (fun r => decide (rkey r = k))) ∧
      ∀ r ∈ ([ ⟨"FR-E820-11K", 2, 50, PFloat.val 25, PFloat.val 43.75, none,
              "E", none, PFloat.nan, PFloat.nan, PFloat.nan, PFloat.nan, 11,
              1⟩,
            ⟨"FR-A840-11K", 1, 40, PFloat.val 40, PFloat.val 70, none, "A",
              none, PFloat.nan, PFloat.nan, PFloat.nan, PFloat.nan, 11,
              3⟩ ] : List Rec),
        capacity_val r.model = some r.capacity ∧
          (capSearch r.model.data = none → r.capacity = 0) ∧
          r.seriesOrder = orderOf (series_tag r.model) :=
  c2_sort_order emptyPM emptyPM
    [⟨"FR-A840-11K", 1, 40⟩, ⟨"FR-E820-11K", 2, 50⟩] _ (by decide)

end VFD
